import Mathlib

/-!
Verification of the xv6 lab buffer cache (kernel/bio.c) and per-CPU page
allocator (kernel/kalloc.c).  The C code is shallowly embedded: the cache's
intrusive circular doubly-linked lists are modelled by explicit `next`/`prev`
pointer maps over a node type (one sentinel per hash bucket plus one node per
buffer), list traversals are fueled (a `none` result models a traversal that
never returns to its sentinel, i.e. an infinite loop in the C code), and
machine integers are `Nat` with explicit reduction mod 2^32 where the C code
can wrap (`refcnt` is a `uint`).
-/

namespace Xv6

/-- NBUCKET from bio.c: `#define NBUCKET 13`. -/
def NBUCKET : Nat := 13

/-- Modulus of the C `uint` type (32-bit unsigned arithmetic). -/
def U32 : Nat := 2 ^ 32

/-- dhash from bio.c: `HASH(dev + blockno)` where `HASH(key)` is
`(uint64)(key) % NBUCKET`; the sum `dev + blockno` is computed in `uint`
arithmetic, hence the inner reduction mod 2^32. -/
def dhash (dev blockno : Nat) : Nat := ((dev + blockno) % U32) % NBUCKET

/-- Address of a node of a bucket's circular list: either the sentinel
`&bcache.bucket[i]` or the buffer `&bcache.buf[j]`. -/
inductive Node where
  | sentinel (i : Nat)
  | buf (j : Nat)
  deriving DecidableEq

/-- Fields of `struct buf` that the claims mention (the byte array `data`
is abstracted to a single value; no claim indexes into it). -/
structure BufData where
  dev : Nat
  blockno : Nat
  valid : Bool
  refcnt : Nat
  locked : Bool
  data : Nat
  deriving DecidableEq

/-- State of `bcache` plus the instrumentation the claims need: `nextP` and
`prevP` are the `next`/`prev` pointer fields of every node, `disk` is the
(read-only here) disk contents, and `reads` counts `virtio_disk_rw(b, 0)`
calls issued by `bread`. -/
structure BC where
  nbuf : Nat
  bufs : Nat → BufData
  nextP : Node → Node
  prevP : Node → Node
  disk : Nat → Nat → Nat
  reads : Nat

/-- Write the `next` field of node `n`. -/
def setNext (st : BC) (n v : Node) : BC :=
  { st with nextP := fun m => if m = n then v else st.nextP m }

/-- Write the `prev` field of node `n`. -/
def setPrev (st : BC) (n v : Node) : BC :=
  { st with prevP := fun m => if m = n then v else st.prevP m }

/-- Write the fields of buffer `j`. -/
def setBuf (st : BC) (j : Nat) (b : BufData) : BC :=
  { st with bufs := fun k => if k = j then b else st.bufs k }

/-- Search of a bucket list, as compiled from the C loop
`for (b = bucket[h].next; b != &bucket[h]; b = b->next) if (p(b)) ...`.
The outer `Option` is the fuel: `none` means the walk did not come back to
sentinel `h` within `fuel` steps (the C loop diverges on such a state);
`some none` means the loop completed without a node satisfying `p`;
`some (some j)` means buffer `j` is the first node satisfying `p`. -/
def searchG (nxt : Node → Node) (p : Nat → Bool) (h : Nat) :
    Nat → Node → Option (Option Nat)
  | 0, _ => none
  | fuel + 1, Node.sentinel i =>
      if i = h then some none else searchG nxt p h fuel (nxt (Node.sentinel i))
  | fuel + 1, Node.buf j =>
      if p j then some (some j) else searchG nxt p h fuel (nxt (Node.buf j))

/-- The sequence of buffers a walk of bucket `h`'s list visits before coming
back to the sentinel; `none` if the walk does not come back within `fuel`. -/
def walkG (nxt : Node → Node) (h : Nat) : Nat → Node → Option (List Nat)
  | 0, _ => none
  | fuel + 1, Node.sentinel i =>
      if i = h then some [] else walkG nxt h fuel (nxt (Node.sentinel i))
  | fuel + 1, Node.buf j =>
      (walkG nxt h fuel (nxt (Node.buf j))).map (fun l => j :: l)

/-- Fuel that certainly completes every walk of a well-formed bucket list
(a well-formed list holds at most `nbuf` buffers and one sentinel). -/
def bfuel (st : BC) : Nat := st.nbuf + NBUCKET + 1

/-- Contents of bucket `h`'s list, by walking `next` pointers from the
sentinel (as every loop in bio.c does). -/
def bucketList (st : BC) (h : Nat) : Option (List Nat) :=
  walkG st.nextP h (bfuel st) (st.nextP (Node.sentinel h))

/-- Hit predicate of bget: `b->dev == dev && b->blockno == blockno`. -/
def matchB (st : BC) (dev blockno j : Nat) : Bool :=
  (st.bufs j).dev == dev && (st.bufs j).blockno == blockno

/-- Victim predicate of bget: `b->refcnt == 0`. -/
def freeB (st : BC) (j : Nat) : Bool :=
  (st.bufs j).refcnt == 0

/-- Result of bget: either `panic("bget: no buffers")` or a locked buffer
(index plus post-state). -/
inductive BRes where
  | panic
  | ok (j : Nat) (st : BC)

/-- Hit path of bget: `b->refcnt++` (uint arithmetic) then
`acquiresleep(&b->lock)`.  In this sequential model a sleep-lock that is
already held blocks the caller forever, modelled as `none`. -/
def bgetHit (st : BC) (j : Nat) : Option BRes :=
  if (st.bufs j).locked then none
  else some (BRes.ok j (setBuf st j
    { st.bufs j with refcnt := ((st.bufs j).refcnt + 1) % U32, locked := true }))

/-- Local-reuse path of bget: claim the buffer in place
(`b->dev = dev; b->blockno = blockno; b->valid = 0; b->refcnt = 1`)
then acquire its sleep-lock. -/
def bgetClaim (st : BC) (j dev blockno : Nat) : Option BRes :=
  if (st.bufs j).locked then none
  else some (BRes.ok j (setBuf st j
    { st.bufs j with dev := dev, blockno := blockno, valid := false,
                     refcnt := 1, locked := true }))

/-- The six pointer writes of the cross-bucket steal (bio.c lines 124-132),
performed in source order, each one reading the state left by the previous
one.  The fourth write is the literal source line
`b->prev = bcache.bucket;` — the array base, i.e. bucket 0's sentinel. -/
def stealRelink (st : BC) (j h : Nat) : BC :=
  -- b->prev->next = b->next;
  let st1 := setNext st (st.prevP (Node.buf j)) (st.nextP (Node.buf j))
  -- b->next->prev = b->prev;
  let st2 := setPrev st1 (st1.nextP (Node.buf j)) (st1.prevP (Node.buf j))
  -- b->next = bcache.bucket[bucketid].next;
  let st3 := setNext st2 (Node.buf j) (st2.nextP (Node.sentinel h))
  -- b->prev = bcache.bucket;
  let st4 := setPrev st3 (Node.buf j) (Node.sentinel 0)
  -- bcache.bucket[bucketid].next->prev = b;
  let st5 := setPrev st4 (st4.nextP (Node.sentinel h)) (Node.buf j)
  -- bcache.bucket[bucketid].next = b;
  setNext st5 (Node.sentinel h) (Node.buf j)

/-- Steal path of bget: update identity and refcount, re-link into the home
bucket `h`, acquire the sleep-lock. -/
def bgetSteal (st : BC) (j dev blockno h : Nat) : Option BRes :=
  if (st.bufs j).locked then none
  else
    let st1 := setBuf st j
      { st.bufs j with dev := dev, blockno := blockno, valid := false, refcnt := 1 }
    let st2 := stealRelink st1 j h
    some (BRes.ok j (setBuf st2 j { st2.bufs j with locked := true }))

/-- The `for (int i = 1; i < NBUCKET; i++)` probe of the other buckets:
`cnt` iterations remain, the current probe index is `i`, the probed bucket is
`(h + i) % NBUCKET`.  Falling off the end is `panic("bget: no buffers")`. -/
def bgetStealLoop (st : BC) (dev blockno h : Nat) : Nat → Nat → Option BRes
  | 0, _ => some BRes.panic
  | cnt + 1, i =>
      let ob := (h + i) % NBUCKET
      match searchG st.nextP (freeB st) ob (bfuel st) (st.nextP (Node.sentinel ob)) with
      | none => none
      | some (some j) => bgetSteal st j dev blockno h
      | some none => bgetStealLoop st dev blockno h cnt (i + 1)

/-- bget from bio.c: hit scan of the home bucket, then free scan of the home
bucket, then the cross-bucket steal loop, then panic. -/
def bget (st : BC) (dev blockno : Nat) : Option BRes :=
  let h := dhash dev blockno
  match searchG st.nextP (matchB st dev blockno) h (bfuel st) (st.nextP (Node.sentinel h)) with
  | none => none
  | some (some j) => bgetHit st j
  | some none =>
      match searchG st.nextP (freeB st) h (bfuel st) (st.nextP (Node.sentinel h)) with
      | none => none
      | some (some j) => bgetClaim st j dev blockno
      | some none => bgetStealLoop st dev blockno h (NBUCKET - 1) 1

/-- bread from bio.c: bget, then if `!b->valid` read the block from disk
(`virtio_disk_rw(b, 0)`, counted in `reads`) and set `b->valid = 1`. -/
def bread (st : BC) (dev blockno : Nat) : Option BRes :=
  match bget st dev blockno with
  | some (BRes.ok j st1) =>
      if (st1.bufs j).valid then some (BRes.ok j st1)
      else
        some (BRes.ok j
          { setBuf st1 j
              { st1.bufs j with data := st1.disk dev blockno, valid := true }
            with reads := st1.reads + 1 })
  | r => r

/-- Decrement of a C `uint`: wraps to 2^32 - 1 at zero. -/
def decW (r : Nat) : Nat := (r + (U32 - 1)) % U32

/-- brelse from bio.c: panic (`none`) unless the caller holds the sleep-lock;
otherwise release the sleep-lock and decrement `refcnt` (uint arithmetic)
under the bucket lock.  Nothing else is touched. -/
def brelse (st : BC) (j : Nat) : Option BC :=
  if (st.bufs j).locked then
    some (setBuf st j
      { st.bufs j with locked := false, refcnt := decW (st.bufs j).refcnt })
  else none

/-- bpin from bio.c: `b->refcnt++` under the bucket lock. -/
def bpin (st : BC) (j : Nat) : BC :=
  setBuf st j { st.bufs j with refcnt := ((st.bufs j).refcnt + 1) % U32 }

/-- bunpin from bio.c: `b->refcnt--` under the bucket lock; a plain uint
decrement with no underflow check. -/
def bunpin (st : BC) (j : Nat) : BC :=
  setBuf st j { st.bufs j with refcnt := decW (st.bufs j).refcnt }

/-- Initial value of every `struct buf` field (the `bcache` global is
zero-initialized C static storage). -/
def buf0 : BufData := ⟨0, 0, false, 0, false, 0⟩

/-- The four writes of binit's insertion of buffer `j` at the head of bucket
`id`'s list, in source order (bio.c lines 62-66). -/
def binitInsert (st : BC) (id j : Nat) : BC :=
  -- b->prev = &bcache.bucket[bucketid];
  let st1 := setPrev st (Node.buf j) (Node.sentinel id)
  -- b->next = bcache.bucket[bucketid].next;
  let st2 := setNext st1 (Node.buf j) (st1.nextP (Node.sentinel id))
  -- bcache.bucket[bucketid].next->prev = b;
  let st3 := setPrev st2 (st2.nextP (Node.sentinel id)) (Node.buf j)
  -- bcache.bucket[bucketid].next = b;
  setNext st3 (Node.sentinel id) (Node.buf j)

/-- Insert buffers `0, 1, …, n-1` in order, buffer `j` into bucket
`assign j`. -/
def binitLoop (assign : Nat → Nat) : Nat → BC → BC
  | 0, st => st
  | j + 1, st => binitInsert (binitLoop assign j st) (assign j) j

/-- binit from bio.c.  Every sentinel's `prev`/`next` start pointing at
itself, then each buffer is pushed at the head of its starting bucket.
The starting bucket of buffer `j` is `HASH(b)` on the buffer's machine
address, which the source files do not determine (it depends on link-time
addresses and `sizeof(struct buf)`); it is therefore a parameter `assign`,
an arbitrary deterministic assignment as the spec allows. -/
def binitState (nbuf : Nat) (assign : Nat → Nat) (disk : Nat → Nat → Nat) : BC :=
  binitLoop assign nbuf
    { nbuf := nbuf, bufs := fun _ => buf0,
      nextP := fun n => n, prevP := fun n => n, disk := disk, reads := 0 }

/-- Placeholder state used to project out of an `Option`/`BRes` that is known
to be `ok`. -/
def bcFail : BC :=
  { nbuf := 0, bufs := fun _ => buf0, nextP := fun n => n, prevP := fun n => n,
    disk := fun _ _ => 0, reads := 0 }

/-- Post-state of a bget/bread result (meaningful only on `ok` results). -/
def resState : Option BRes → BC
  | some (BRes.ok _ st) => st
  | _ => bcFail

/-- Buffer index of a bget/bread result. -/
def resIdx : Option BRes → Option Nat
  | some (BRes.ok j _) => some j
  | _ => none

/-- Concatenation of all bucket lists (a non-terminating walk contributes
nothing). -/
def allBufLists (st : BC) : List Nat :=
  (List.range NBUCKET).foldr (fun h acc => (bucketList st h).getD [] ++ acc) []

/-- Conservation of the cache, as the spec states it: every bucket's list is
a well-founded circular list (its walk returns to the sentinel), the buffers
reachable across all buckets number exactly `nbuf`, and every buffer index
is a member of exactly one bucket's list. -/
def conserved (st : BC) : Prop :=
  (∀ h, h < NBUCKET → (bucketList st h).isSome = true) ∧
  (allBufLists st).length = st.nbuf ∧
  ∀ j, j < st.nbuf → (allBufLists st).count j = 1

/-- State after binit with a single buffer (buffer 0, assigned to bucket 0)
and an all-zero disk: the smallest state exhibiting the steal re-link slip. -/
def exSt0 : BC := binitState 1 (fun _ => 0) (fun _ _ => 0)

/-- State after `bget(0, 1)` on `exSt0`: buffer 0 is stolen from bucket 0
into its home bucket 1. -/
def exSt1 : BC := resState (bget exSt0 0 1)

/-- State after releasing buffer 0 again: its refcnt drops back to 0. -/
def exSt2 : BC := (brelse exSt1 0).getD bcFail

/-- State after `bget(0, 2)` on `exSt2`: buffer 0 is stolen a second time,
now from bucket 1 into its new home bucket 2, unlinking through the stale
`prev` pointer left by the first steal. -/
def exSt3 : BC := resState (bget exSt2 0 2)

/-- Every buffer a bucket list reaches is a real buffer index
(`&bcache.buf[j]` with `j < NBUF`). -/
def wfRange (st : BC) : Prop :=
  ∀ h, h < NBUCKET → ∀ j ∈ (bucketList st h).getD [], j < st.nbuf

/-- Spec invariant 6 ("the bucket identity computed from
`(device, block_number)` is the bucket a live buffer lives in"),
instantiated at one key: every buffer matching `(dev, blockno)` is in the
home bucket's list. -/
def placement (st : BC) (dev blockno : Nat) : Prop :=
  ∀ j, j < st.nbuf → matchB st dev blockno j = true →
    j ∈ (bucketList st (dhash dev blockno)).getD []

/-- Quiescence: no caller currently holds any buffer's sleep-lock. -/
def locksFree (st : BC) : Prop :=
  ∀ j, j < st.nbuf → (st.bufs j).locked = false

instance conservedDec (st : BC) : Decidable (conserved st) := by
  unfold conserved; infer_instance

instance wfRangeDec (st : BC) : Decidable (wfRange st) := by
  unfold wfRange; infer_instance

instance placementDec (st : BC) (dev blockno : Nat) :
    Decidable (placement st dev blockno) := by
  unfold placement; infer_instance

instance locksFreeDec (st : BC) : Decidable (locksFree st) := by
  unfold locksFree; infer_instance

/-! Page allocator (kernel/kalloc.c).  A frame is its physical address
(`Nat`); each per-CPU pool's intrusive freelist is the list of frame
addresses obtained by chasing `r->next` from the pool head, and `mem` maps a
byte address to its contents.  `PGSIZE` is the 4096 of riscv.h; `kend`
(the linker symbol `end`), `ptop` (`PHYSTOP` of memlayout.h) and `ncpu`
(`NCPU` of param.h) live outside the two source files and are parameters. -/

/-- Page size: `PGSIZE` from riscv.h. -/
def PGSIZE : Nat := 4096

/-- State of the `kmem[NCPU]` pools plus physical memory contents. -/
structure K where
  freelist : Nat → List Nat
  mem : Nat → Nat

/-- Replace pool `c`'s freelist. -/
def ksetF (st : K) (c : Nat) (l : List Nat) : K :=
  { st with freelist := fun d => if d = c then l else st.freelist d }

/-- memset(pa, v, n): fill `n` bytes starting at `pa` with byte `v`. -/
def kmemset (st : K) (pa v n : Nat) : K :=
  { st with mem := fun a => if pa ≤ a ∧ a < pa + n then v else st.mem a }

/-- kfree from kalloc.c, run by CPU `nc`: panic (`none`) on a misaligned or
out-of-range address, else fill the page with junk byte 1 and push it at the
head of the current CPU's freelist. -/
def kfree (kend ptop nc pa : Nat) (st : K) : Option K :=
  if pa % PGSIZE ≠ 0 ∨ pa < kend ∨ ptop ≤ pa then none
  else
    let st1 := kmemset st pa 1 PGSIZE
    some (ksetF st1 nc (pa :: st1.freelist nc))

/-- The `for (int i = 1; i < NCPU; i++)` steal loop of kalloc: `cnt`
iterations remain, the probed pool is `(nc + i) % ncpu`; pop the head of the
first non-empty pool. -/
def kallocLoop (ncpu nc : Nat) : Nat → Nat → K → Option Nat × K
  | 0, _, st => (none, st)
  | cnt + 1, i, st =>
      let c := (nc + i) % ncpu
      match st.freelist c with
      | r :: rest => (some r, ksetF st c rest)
      | [] => kallocLoop ncpu nc cnt (i + 1) st

/-- kalloc from kalloc.c, run by CPU `nc`: pop the local pool's head, else
probe the other `ncpu - 1` pools in order `(nc + 1), (nc + 2), …` mod
`ncpu`; fill any obtained frame with junk byte 5 before returning it. -/
def kalloc (ncpu nc : Nat) (st : K) : Option Nat × K :=
  let pr :=
    match st.freelist nc with
    | r :: rest => (some r, ksetF st nc rest)
    | [] => kallocLoop ncpu nc (ncpu - 1) 1 st
  match pr with
  | (some r, st1) => (some r, kmemset st1 r 5 PGSIZE)
  | (none, st1) => (none, st1)

/-- PGROUNDUP from riscv.h: round up to the next page boundary. -/
def PGROUNDUP (a : Nat) : Nat := ((a + PGSIZE - 1) / PGSIZE) * PGSIZE

/-- The loop of freerange: `for (; p + PGSIZE <= pa_end; p += PGSIZE)
kfree(p);` — a kfree panic aborts the whole run (`none`).  The loop is
fueled to stay structurally recursive; each iteration advances `p` by
`PGSIZE ≥ 1`, so any fuel of at least `ptop` iterations makes the fuel-out
case unreachable (the entry point below passes `ptop` itself). -/
def freerangeLoop (kend ptop nc : Nat) : Nat → Nat → K → Option K
  | 0, _, st => some st
  | fuel + 1, p, st =>
      if p + PGSIZE ≤ ptop then
        match kfree kend ptop nc p st with
        | none => none
        | some st1 => freerangeLoop kend ptop nc fuel (p + PGSIZE) st1
      else some st

/-- kinit from kalloc.c, run by boot CPU `nc`: all pools start empty (the
`kmem` global is zero-initialized), then
`freerange(end, (void*)PHYSTOP)` hands every page to kfree. -/
def kinitState (kend ptop nc : Nat) : Option K :=
  freerangeLoop kend ptop nc ptop (PGROUNDUP kend) { freelist := fun _ => [], mem := fun _ => 0 }

/-- Alignment-and-range invariant of the allocator (spec invariant 8):
every address on any pool's freelist is page-aligned and lies inside the
managed region `[end, PHYSTOP)`. -/
def kinv (kend ptop : Nat) (st : K) : Prop :=
  ∀ c a, a ∈ st.freelist c → a % PGSIZE = 0 ∧ kend ≤ a ∧ a < ptop

/-- Post-state of the first bread of the C3 round-trip scenario
(`bread(0, 5)` on the one-buffer binit state). -/
def exC3St1 : BC := resState (bread exSt0 0 5)

/-- Empty allocator state. -/
def kEx0 : K := { freelist := fun _ => [], mem := fun _ => 0 }

/-- Allocator state whose pool 5 holds the single frame 12288. -/
def kEx2 : K := { freelist := fun c => if c = 5 then [12288] else [], mem := fun _ => 0 }

/-- One-buffer cache state whose buffer 0 is in use (sleep-lock held,
refcnt 2, identity (3, 4), valid contents 9). -/
def exLockedSt : BC := setBuf exSt0 0 ⟨3, 4, true, 2, true, 9⟩

/-- Allocator state produced by kinit with `kend = 4096`, `PHYSTOP = 20480`,
boot CPU 0. -/
def KI : K := (kinitState 4096 20480 0).getD kEx0

@[simp] theorem setNext_bufs (st : BC) (n v : Node) : (setNext st n v).bufs = st.bufs := rfl
@[simp] theorem setNext_prevP (st : BC) (n v : Node) : (setNext st n v).prevP = st.prevP := rfl
@[simp] theorem setNext_reads (st : BC) (n v : Node) : (setNext st n v).reads = st.reads := rfl
@[simp] theorem setNext_nbuf (st : BC) (n v : Node) : (setNext st n v).nbuf = st.nbuf := rfl
@[simp] theorem setNext_disk (st : BC) (n v : Node) : (setNext st n v).disk = st.disk := rfl
@[simp] theorem setNext_nextP (st : BC) (n v m : Node) :
    (setNext st n v).nextP m = if m = n then v else st.nextP m := rfl
@[simp] theorem setPrev_bufs (st : BC) (n v : Node) : (setPrev st n v).bufs = st.bufs := rfl
@[simp] theorem setPrev_nextP (st : BC) (n v : Node) : (setPrev st n v).nextP = st.nextP := rfl
@[simp] theorem setPrev_reads (st : BC) (n v : Node) : (setPrev st n v).reads = st.reads := rfl
@[simp] theorem setPrev_nbuf (st : BC) (n v : Node) : (setPrev st n v).nbuf = st.nbuf := rfl
@[simp] theorem setPrev_disk (st : BC) (n v : Node) : (setPrev st n v).disk = st.disk := rfl
@[simp] theorem setPrev_prevP (st : BC) (n v m : Node) :
    (setPrev st n v).prevP m = if m = n then v else st.prevP m := rfl
@[simp] theorem setBuf_nextP (st : BC) (j : Nat) (b : BufData) : (setBuf st j b).nextP = st.nextP := rfl
@[simp] theorem setBuf_prevP (st : BC) (j : Nat) (b : BufData) : (setBuf st j b).prevP = st.prevP := rfl
@[simp] theorem setBuf_reads (st : BC) (j : Nat) (b : BufData) : (setBuf st j b).reads = st.reads := rfl
@[simp] theorem setBuf_nbuf (st : BC) (j : Nat) (b : BufData) : (setBuf st j b).nbuf = st.nbuf := rfl
@[simp] theorem setBuf_disk (st : BC) (j : Nat) (b : BufData) : (setBuf st j b).disk = st.disk := rfl
@[simp] theorem setBuf_bufs (st : BC) (j : Nat) (b : BufData) (k : Nat) :
    (setBuf st j b).bufs k = if k = j then b else st.bufs k := rfl

theorem searchG_found_p {nxt : Node → Node} {p : Nat → Bool} {h j : Nat} :
    ∀ {fuel : Nat} {start : Node},
      searchG nxt p h fuel start = some (some j) → p j = true := by
  intro fuel
  induction fuel with
  | zero => intro start hs; simp [searchG] at hs
  | succ n ih =>
    intro start hs
    cases start with
    | sentinel i =>
      by_cases hi : i = h
      · simp [searchG, hi] at hs
      · rw [searchG, if_neg hi] at hs; exact ih hs
    | buf k =>
      by_cases hp : p k
      · rw [searchG, if_pos hp] at hs
        simp only [Option.some.injEq] at hs
        subst hs; exact hp
      · rw [searchG, if_neg hp] at hs; exact ih hs

theorem searchG_stable {nxt : Node → Node} {p pp : Nat → Bool} {h j : Nat}
    (hpj : pp j = true) (hk : ∀ k, k ≠ j → pp k = p k) :
    ∀ {fuel : Nat} {start : Node},
      searchG nxt p h fuel start = some (some j) →
      searchG nxt pp h fuel start = some (some j) := by
  intro fuel
  induction fuel with
  | zero => intro start hs; simp [searchG] at hs
  | succ n ih =>
    intro start hs
    cases start with
    | sentinel i =>
      by_cases hi : i = h
      · simp [searchG, hi] at hs
      · rw [searchG, if_neg hi] at hs ⊢; exact ih hs
    | buf k =>
      by_cases hkj : k = j
      · subst hkj
        rw [searchG, if_pos hpj]
      · have hpk : p k = false := by
          by_cases hp : p k
          · rw [searchG, if_pos hp] at hs
            simp only [Option.some.injEq] at hs
            exact absurd hs hkj
          · simpa using hp
        rw [searchG, if_neg (by simp [hpk])] at hs
        rw [searchG, if_neg (by simp [hk k hkj, hpk])]
        exact ih hs

theorem searchG_upgrade {nxt : Node → Node} {p q pp : Nat → Bool} {h j : Nat}
    (hpj : pp j = true) (hk : ∀ k, k ≠ j → pp k = p k) :
    ∀ {fuel : Nat} {start : Node},
      searchG nxt p h fuel start = some none →
      searchG nxt q h fuel start = some (some j) →
      searchG nxt pp h fuel start = some (some j) := by
  intro fuel
  induction fuel with
  | zero => intro start hp hq; simp [searchG] at hp
  | succ n ih =>
    intro start hp hq
    cases start with
    | sentinel i =>
      by_cases hi : i = h
      · simp [searchG, hi] at hq
      · rw [searchG, if_neg hi] at hp hq ⊢; exact ih hp hq
    | buf k =>
      by_cases hkj : k = j
      · subst hkj
        rw [searchG, if_pos hpj]
      · have hpk : p k = false := by
          by_cases hh : p k
          · rw [searchG, if_pos hh] at hp; simp at hp
          · simpa using hh
        have hqk : q k = false := by
          by_cases hh : q k
          · rw [searchG, if_pos hh] at hq
            simp only [Option.some.injEq] at hq
            exact absurd hq hkj
          · simpa using hh
        rw [searchG, if_neg (by simp [hpk])] at hp
        rw [searchG, if_neg (by simp [hqk])] at hq
        rw [searchG, if_neg (by simp [hk k hkj, hpk])]
        exact ih hp hq

theorem searchG_buf_head {nxt : Node → Node} {p : Nat → Bool} {h j : Nat}
    {fuel : Nat} (hf : 0 < fuel) (hp : p j = true) :
    searchG nxt p h fuel (Node.buf j) = some (some j) := by
  cases fuel with
  | zero => omega
  | succ n => rw [searchG, if_pos hp]

theorem walkG_isSome_search {nxt : Node → Node} (p : Nat → Bool) {h : Nat} :
    ∀ {fuel : Nat} {start : Node} {l : List Nat},
      walkG nxt h fuel start = some l → (searchG nxt p h fuel start).isSome := by
  intro fuel
  induction fuel with
  | zero => intro start l hw; simp [walkG] at hw
  | succ n ih =>
    intro start l hw
    cases start with
    | sentinel i =>
      by_cases hi : i = h
      · simp [searchG, hi]
      · rw [walkG, if_neg hi] at hw; rw [searchG, if_neg hi]; exact ih hw
    | buf k =>
      rw [walkG] at hw
      rcases Option.map_eq_some'.mp hw with ⟨l', hl', _⟩
      by_cases hp : p k
      · simp [searchG, hp]
      · rw [searchG, if_neg hp]; exact ih hl'

theorem searchG_none_walk {nxt : Node → Node} {p : Nat → Bool} {h : Nat} :
    ∀ {fuel : Nat} {start : Node} {l : List Nat},
      searchG nxt p h fuel start = some none →
      walkG nxt h fuel start = some l →
      ∀ k ∈ l, p k = false := by
  intro fuel
  induction fuel with
  | zero => intro start l hs hw; simp [searchG] at hs
  | succ n ih =>
    intro start l hs hw
    cases start with
    | sentinel i =>
      by_cases hi : i = h
      · rw [walkG, if_pos hi] at hw
        simp only [Option.some.injEq] at hw
        subst hw; intro k hk; simp at hk
      · rw [searchG, if_neg hi] at hs; rw [walkG, if_neg hi] at hw
        exact ih hs hw
    | buf k =>
      have hpk : p k = false := by
        by_cases hh : p k
        · rw [searchG, if_pos hh] at hs; simp at hs
        · simpa using hh
      rw [searchG, if_neg (by simp [hpk])] at hs
      rw [walkG] at hw
      rcases Option.map_eq_some'.mp hw with ⟨l', hl', rfl⟩
      intro k0 hk0
      rcases List.mem_cons.mp hk0 with rfl | hk0
      · exact hpk
      · exact ih hs hl' k0 hk0

theorem walkG_search_none {nxt : Node → Node} {p : Nat → Bool} {h : Nat} :
    ∀ {fuel : Nat} {start : Node} {l : List Nat},
      walkG nxt h fuel start = some l →
      (∀ k ∈ l, p k = false) →
      searchG nxt p h fuel start = some none := by
  intro fuel
  induction fuel with
  | zero => intro start l hw; simp [walkG] at hw
  | succ n ih =>
    intro start l hw hall
    cases start with
    | sentinel i =>
      by_cases hi : i = h
      · rw [searchG, if_pos hi]
      · rw [walkG, if_neg hi] at hw; rw [searchG, if_neg hi]; exact ih hw hall
    | buf k =>
      rw [walkG] at hw
      rcases Option.map_eq_some'.mp hw with ⟨l', hl', rfl⟩
      have hpk : p k = false := hall k (List.mem_cons_self k l')
      rw [searchG, if_neg (by simp [hpk])]
      exact ih hl' (fun k0 hk0 => hall k0 (List.mem_cons_of_mem _ hk0))

theorem walkG_search_finds {nxt : Node → Node} {p : Nat → Bool} {h : Nat} :
    ∀ {fuel : Nat} {start : Node} {l : List Nat} {k0 : Nat},
      walkG nxt h fuel start = some l → k0 ∈ l → p k0 = true →
      ∃ j, searchG nxt p h fuel start = some (some j) := by
  intro fuel
  induction fuel with
  | zero => intro start l k0 hw; simp [walkG] at hw
  | succ n ih =>
    intro start l k0 hw hmem hp0
    cases start with
    | sentinel i =>
      by_cases hi : i = h
      · rw [walkG, if_pos hi] at hw
        simp only [Option.some.injEq] at hw; subst hw; simp at hmem
      · rw [walkG, if_neg hi] at hw; rw [searchG, if_neg hi]
        exact ih hw hmem hp0
    | buf k =>
      rw [walkG] at hw
      rcases Option.map_eq_some'.mp hw with ⟨l', hl', rfl⟩
      by_cases hp : p k
      · exact ⟨k, by rw [searchG, if_pos hp]⟩
      · rcases List.mem_cons.mp hmem with rfl | hmem
        · rw [hp0] at hp; exact absurd rfl hp
        · rw [searchG, if_neg hp]
          exact ih hl' hmem hp0

theorem searchG_found_mem {nxt : Node → Node} {p : Nat → Bool} {h : Nat} :
    ∀ {fuel : Nat} {start : Node} {l : List Nat} {j : Nat},
      walkG nxt h fuel start = some l →
      searchG nxt p h fuel start = some (some j) →
      j ∈ l := by
  intro fuel
  induction fuel with
  | zero => intro start l j hw; simp [walkG] at hw
  | succ n ih =>
    intro start l j hw hs
    cases start with
    | sentinel i =>
      by_cases hi : i = h
      · simp [searchG, hi] at hs
      · rw [walkG, if_neg hi] at hw; rw [searchG, if_neg hi] at hs
        exact ih hw hs
    | buf k =>
      rw [walkG] at hw
      rcases Option.map_eq_some'.mp hw with ⟨l', hl', rfl⟩
      by_cases hp : p k
      · rw [searchG, if_pos hp] at hs
        simp only [Option.some.injEq] at hs
        subst hs; exact List.mem_cons_self _ _
      · rw [searchG, if_neg hp] at hs
        exact List.mem_cons_of_mem _ (ih hl' hs)

/-- C1.  Evaluation of bget at the failing input: with a single buffer that
starts in bucket 0, `bget(0, 1)` (home bucket `h = dhash 0 1 = 1`) steals
the buffer cross-bucket.  After the re-link the home sentinel's `next` is the
buffer and the buffer's `next`'s `prev` is the buffer, but the buffer's
`prev` is bucket 0's sentinel — `b->prev = bcache.bucket` is the array base —
and not home bucket 1's sentinel as the claim requires for every `h`. -/
theorem bget_steal_prev_is_bucket_zero :
    dhash 0 1 = 1 ∧
    resIdx (bget exSt0 0 1) = some 0 ∧
    exSt1.nextP (Node.sentinel 1) = Node.buf 0 ∧
    exSt1.prevP (exSt1.nextP (Node.buf 0)) = Node.buf 0 ∧
    exSt1.prevP (Node.buf 0) = Node.sentinel 0 ∧
    exSt1.prevP (Node.buf 0) ≠ Node.sentinel 1 := by decide

/-- C2.  Evaluation of the cache at the failing sequence: starting from the
binit state with one buffer in bucket 0, the quiescent sequence
`bget(0, 1); brelse; bget(0, 2)` performs two successive cross-bucket steals
of the same buffer.  Conservation holds in the initial state but is destroyed
by the second steal: unlinking through the stale `prev` pointer (bucket 0's
sentinel) corrupts bucket 0's `next` pointer, after which the walks of
buckets 0 and 1 never return to their sentinels and the total number of
buffers reachable across all buckets no longer equals `nbuf`. -/
theorem conservation_broken_by_double_steal :
    conserved exSt0 ∧
    resIdx (bget exSt0 0 1) = some 0 ∧
    (brelse exSt1 0).isSome = true ∧
    resIdx (bget exSt2 0 2) = some 0 ∧
    ¬ conserved exSt3 := by decide

/-- C6.  kfree panics exactly on a bad address: `kfree(pa)` aborts if and
only if `pa` is not a multiple of `PGSIZE`, or `pa` lies below the
end-of-kernel-image marker `kend`, or `pa` is at or above `PHYSTOP`; on every
address passing all three checks it completes. -/
theorem kfree_panic_iff (kend ptop nc pa : Nat) (st : K) :
    kfree kend ptop nc pa st = none ↔
      (pa % PGSIZE ≠ 0 ∨ pa < kend ∨ ptop ≤ pa) := by
  by_cases hc : pa % PGSIZE ≠ 0 ∨ pa < kend ∨ ptop ≤ pa
  · rw [kfree, if_pos hc]; simpa using hc
  · rw [kfree, if_neg hc]; simp [hc]

/-- C8.  Allocator local-path round trip: for an in-range page-aligned frame
`pa`, `kfree(pa)` on CPU `nc` followed by `kalloc()` on the same CPU with no
intervening operation returns `pa` — kfree pushes at the head of the local
pool and kalloc pops that head. -/
theorem kfree_kalloc_roundtrip (kend ptop ncpu nc pa : Nat) (st : K)
    (ha : pa % PGSIZE = 0) (h1 : kend ≤ pa) (h2 : pa < ptop) :
    ∃ st1, kfree kend ptop nc pa st = some st1 ∧
      (kalloc ncpu nc st1).1 = some pa := by
  have hc : ¬(pa % PGSIZE ≠ 0 ∨ pa < kend ∨ ptop ≤ pa) := by
    push_neg; exact ⟨ha, by omega, by omega⟩
  refine ⟨_, by rw [kfree, if_neg hc], ?_⟩
  simp [kalloc, ksetF]

/-- Witness for C8 at `kend = 4096`, `ptop = 12288`, `ncpu = 8`, CPU 0,
frame 8192, starting from the empty allocator. -/
theorem kfree_kalloc_roundtrip_w :
    (8192 % PGSIZE = 0 ∧ 4096 ≤ 8192 ∧ 8192 < 12288) ∧
    ∃ st1, kfree 4096 12288 0 8192 kEx0 = some st1 ∧
      (kalloc 8 0 st1).1 = some 8192 :=
  ⟨⟨by decide, by omega, by omega⟩,
   kfree_kalloc_roundtrip 4096 12288 8 0 8192 kEx0 (by decide) (by omega) (by omega)⟩

/-- C9.  Frame effect of brelse: on a buffer whose sleep-lock the caller
holds, brelse succeeds (no panic), decrements that buffer's refcnt by exactly
one and clears the lock, and changes nothing else — the buffer's dev,
blockno, valid flag and data, every other buffer, both pointer maps (hence
every bucket list), the read counter, nbuf and the disk are all unchanged;
this includes the case where refcnt reaches 0 (no I/O, no unlinking, no
invalidation). -/
theorem brelse_frame (st : BC) (j : Nat)
    (hl : (st.bufs j).locked = true) (h1 : 0 < (st.bufs j).refcnt)
    (h2 : (st.bufs j).refcnt < U32) :
    ∃ st1, brelse st j = some st1 ∧
      st1.bufs j = { st.bufs j with locked := false, refcnt := (st.bufs j).refcnt - 1 } ∧
      (∀ k, k ≠ j → st1.bufs k = st.bufs k) ∧
      st1.nextP = st.nextP ∧ st1.prevP = st.prevP ∧
      st1.reads = st.reads ∧ st1.nbuf = st.nbuf ∧ st1.disk = st.disk := by
  have hd : decW (st.bufs j).refcnt = (st.bufs j).refcnt - 1 := by
    unfold decW U32 at *; omega
  refine ⟨setBuf st j { st.bufs j with locked := false, refcnt := decW (st.bufs j).refcnt },
    ?_, ?_, ?_, rfl, rfl, rfl, rfl, rfl⟩
  · rw [brelse, if_pos hl]
  · simp [hd]
  · intro k hk; simp [hk]

/-- Witness for C9 on a held buffer with refcnt 2 (dropping to 1). -/
theorem brelse_frame_w :
    ((exLockedSt.bufs 0).locked = true ∧ 0 < (exLockedSt.bufs 0).refcnt ∧
      (exLockedSt.bufs 0).refcnt < U32) ∧
    ∃ st1, brelse exLockedSt 0 = some st1 ∧
      st1.bufs 0 = { exLockedSt.bufs 0 with locked := false, refcnt := (exLockedSt.bufs 0).refcnt - 1 } ∧
      (∀ k, k ≠ 0 → st1.bufs k = exLockedSt.bufs k) ∧
      st1.nextP = exLockedSt.nextP ∧ st1.prevP = exLockedSt.prevP ∧
      st1.reads = exLockedSt.reads ∧ st1.nbuf = exLockedSt.nbuf ∧
      st1.disk = exLockedSt.disk :=
  ⟨⟨rfl, by decide, by decide⟩,
   brelse_frame exLockedSt 0 rfl (by decide) (by decide)⟩

/-- C10.  bunpin has no underflow check: on a buffer whose refcnt is already
0 it does not panic (it is a total operation); the unsigned decrement wraps
modulo 2^32 to `U32 - 1 = 4294967295`, a nonzero value that leaves the buffer
appearing permanently in use.  Other buffers are untouched. -/
theorem bunpin_wraps (st : BC) (j : Nat) (h0 : (st.bufs j).refcnt = 0) :
    ((bunpin st j).bufs j).refcnt = U32 - 1 ∧
    ((bunpin st j).bufs j).refcnt ≠ 0 ∧
    (∀ k, k ≠ j → (bunpin st j).bufs k = st.bufs k) := by
  have hu : decW 0 = U32 - 1 := by unfold decW U32; norm_num
  refine ⟨?_, ?_, ?_⟩
  · simp [bunpin, h0, hu]
  · simp [bunpin, h0, hu, U32]
  · intro k hk; simp [bunpin, hk]

/-- Witness for C10 on the freshly initialized one-buffer cache, whose
buffer 0 has refcnt 0. -/
theorem bunpin_wraps_w :
    (exSt0.bufs 0).refcnt = 0 ∧
    (((bunpin exSt0 0).bufs 0).refcnt = U32 - 1 ∧
     ((bunpin exSt0 0).bufs 0).refcnt ≠ 0 ∧
     (∀ k, k ≠ 0 → (bunpin exSt0 0).bufs k = exSt0.bufs k)) :=
  ⟨rfl, bunpin_wraps exSt0 0 rfl⟩

theorem kallocLoop_none {ncpu nc : Nat} {st : K} :
    ∀ {cnt i : Nat},
      (∀ ii, i ≤ ii → ii < i + cnt → st.freelist ((nc + ii) % ncpu) = []) →
      kallocLoop ncpu nc cnt i st = (none, st) := by
  intro cnt
  induction cnt with
  | zero => intro i _; rfl
  | succ n ih =>
    intro i h
    have h0 : st.freelist ((nc + i) % ncpu) = [] := h i le_rfl (by omega)
    rw [kallocLoop]
    simp only [h0]
    exact ih (fun ii h1 h2 => h ii (by omega) (by omega))

theorem kallocLoop_none_rev {ncpu nc : Nat} {st st1 : K} :
    ∀ {cnt i : Nat}, kallocLoop ncpu nc cnt i st = (none, st1) →
      ∀ ii, i ≤ ii → ii < i + cnt → st.freelist ((nc + ii) % ncpu) = [] := by
  intro cnt
  induction cnt with
  | zero => intro i _ ii _ _; omega
  | succ n ih =>
    intro i hk ii h1 h2
    rw [kallocLoop] at hk
    cases h0 : st.freelist ((nc + i) % ncpu) with
    | cons r rest => simp only [h0] at hk; exact absurd (congrArg Prod.fst hk) (by simp)
    | nil =>
      simp only [h0] at hk
      by_cases hii : ii = i
      · subst hii; exact h0
      · exact ih hk ii (by omega) (by omega)

theorem kallocLoop_finds {ncpu nc : Nat} {st : K} :
    ∀ {cnt i ii r : Nat} {rest : List Nat}, i ≤ ii → ii < i + cnt →
      (∀ i2, i ≤ i2 → i2 < ii → st.freelist ((nc + i2) % ncpu) = []) →
      st.freelist ((nc + ii) % ncpu) = r :: rest →
      kallocLoop ncpu nc cnt i st = (some r, ksetF st ((nc + ii) % ncpu) rest) := by
  intro cnt
  induction cnt with
  | zero => intro i ii r rest h1 h2; omega
  | succ n ih =>
    intro i ii r rest h1 h2 hpre hcons
    rw [kallocLoop]
    by_cases hii : ii = i
    · subst hii
      simp only [hcons]
    · have h0 : st.freelist ((nc + i) % ncpu) = [] := hpre i le_rfl (by omega)
      simp only [h0]
      exact ih (by omega) (by omega) (fun i2 ha hb => hpre i2 (by omega) hb) hcons

theorem probe_cover {ncpu nc c : Nat} (hn : nc < ncpu) (hc : c < ncpu) (hne : c ≠ nc) :
    ∃ ii, 1 ≤ ii ∧ ii < ncpu ∧ (nc + ii) % ncpu = c := by
  by_cases hle : nc ≤ c
  · refine ⟨c - nc, by omega, by omega, ?_⟩
    have : nc + (c - nc) = c := by omega
    rw [this, Nat.mod_eq_of_lt hc]
  · refine ⟨c + ncpu - nc, by omega, by omega, ?_⟩
    have : nc + (c + ncpu - nc) = c + ncpu := by omega
    rw [this, Nat.add_mod_right, Nat.mod_eq_of_lt hc]

/-- C4.  kalloc returns null if and only if every one of the `ncpu` pool
freelists is empty when probed; otherwise it returns the head frame of the
first non-empty pool in the probe order `nc, nc+1, …, nc+ncpu-1 (mod ncpu)`,
unlinks it from that pool, and overwrites every byte of the returned frame
with the junk value 5 before returning. -/
theorem kalloc_characterization (ncpu nc : Nat) (st : K) (hn : nc < ncpu) :
    ((kalloc ncpu nc st).1 = none ↔ ∀ c, c < ncpu → st.freelist c = []) ∧
    (∀ i r rest, i < ncpu →
      (∀ i2, i2 < i → st.freelist ((nc + i2) % ncpu) = []) →
      st.freelist ((nc + i) % ncpu) = r :: rest →
      (kalloc ncpu nc st).1 = some r ∧
      (kalloc ncpu nc st).2.freelist ((nc + i) % ncpu) = rest ∧
      (∀ a, r ≤ a → a < r + PGSIZE → (kalloc ncpu nc st).2.mem a = 5)) := by
  have hpos : 0 < ncpu := by omega
  constructor
  · constructor
    · intro hnone c hc
      cases hl : st.freelist nc with
      | cons r rest => rw [kalloc] at hnone; simp only [hl] at hnone; simp at hnone
      | nil =>
        rw [kalloc] at hnone
        simp only [hl] at hnone
        rcases hk : kallocLoop ncpu nc (ncpu - 1) 1 st with ⟨ro, st1⟩
        rw [hk] at hnone
        cases ro with
        | some r => simp at hnone
        | none =>
          by_cases hceq : c = nc
          · subst hceq; exact hl
          · obtain ⟨ii, h1, h2, h3⟩ := probe_cover hn hc hceq
            have := kallocLoop_none_rev hk ii h1 (by omega)
            rwa [h3] at this
    · intro hall
      have hl : st.freelist nc = [] := hall nc hn
      rw [kalloc]
      simp only [hl]
      rw [kallocLoop_none (fun ii h1 h2 => hall _ (Nat.mod_lt _ hpos))]
  · intro i r rest hi hpre hcons
    cases Nat.eq_zero_or_pos i with
    | inl hi0 =>
      subst hi0
      rw [Nat.add_zero, Nat.mod_eq_of_lt hn] at hcons
      rw [kalloc]
      simp only [hcons]
      refine ⟨by simp, ?_, ?_⟩
      · simp [kmemset, ksetF, Nat.add_zero, Nat.mod_eq_of_lt hn]
      · intro a ha1 ha2; simp [kmemset, ha1, ha2]
    | inr hi1 =>
      have hl : st.freelist nc = [] := by
        have := hpre 0 hi1
        rwa [Nat.add_zero, Nat.mod_eq_of_lt hn] at this
      rw [kalloc]
      simp only [hl]
      rw [kallocLoop_finds (Nat.one_le_iff_ne_zero.mpr (by omega)) (by omega)
        (fun i2 ha hb => hpre i2 hb) hcons]
      refine ⟨by simp, ?_, ?_⟩
      · simp [kmemset, ksetF]
      · intro a ha1 ha2; simp [kmemset, ha1, ha2]


theorem kinv_kfree {kend ptop nc pa : Nat} {st st1 : K} (hinv : kinv kend ptop st)
    (hk : kfree kend ptop nc pa st = some st1) : kinv kend ptop st1 := by
  by_cases hc : pa % PGSIZE ≠ 0 ∨ pa < kend ∨ ptop ≤ pa
  · rw [kfree, if_pos hc] at hk; simp at hk
  · rw [kfree, if_neg hc] at hk
    push_neg at hc
    simp only [Option.some.injEq] at hk
    subst hk
    intro c a ha
    simp only [ksetF, kmemset] at ha
    by_cases hcn : c = nc
    · simp only [hcn, if_pos rfl] at ha
      rcases List.mem_cons.mp ha with rfl | ha
      · exact ⟨hc.1, hc.2.1, hc.2.2⟩
      · exact hinv nc a ha
    · simp only [if_neg hcn] at ha
      exact hinv c a ha

theorem kinv_kallocLoop {kend ptop ncpu nc : Nat} {st : K} (hinv : kinv kend ptop st) :
    ∀ {cnt i : Nat},
      kinv kend ptop (kallocLoop ncpu nc cnt i st).2 ∧
      (∀ r, (kallocLoop ncpu nc cnt i st).1 = some r →
        r % PGSIZE = 0 ∧ kend ≤ r ∧ r < ptop) := by
  intro cnt
  induction cnt with
  | zero => intro i; exact ⟨hinv, by intro r hr; simp [kallocLoop] at hr⟩
  | succ n ih =>
    intro i
    rw [kallocLoop]
    cases h0 : st.freelist ((nc + i) % ncpu) with
    | nil => exact ih
    | cons r rest =>
      constructor
      · intro c a ha
        simp only [ksetF] at ha
        by_cases hcn : c = (nc + i) % ncpu
        · rw [if_pos hcn] at ha
          exact hinv _ a (by rw [h0]; exact List.mem_cons_of_mem _ ha)
        · rw [if_neg hcn] at ha
          exact hinv c a ha
      · intro r1 hr1
        simp only [Option.some.injEq] at hr1
        subst hr1
        exact hinv _ _ (by rw [h0]; exact List.mem_cons_self _ _)

theorem kinv_kalloc {kend ptop ncpu nc : Nat} {st : K} (hinv : kinv kend ptop st) :
    kinv kend ptop (kalloc ncpu nc st).2 ∧
    (∀ r, (kalloc ncpu nc st).1 = some r →
      r % PGSIZE = 0 ∧ kend ≤ r ∧ r < ptop) := by
  rw [kalloc]
  cases hl : st.freelist nc with
  | cons r rest =>
    simp only
    constructor
    · intro c a ha
      simp only [kmemset, ksetF] at ha
      by_cases hcn : c = nc
      · rw [if_pos hcn] at ha
        exact hinv nc a (by rw [hl]; exact List.mem_cons_of_mem _ ha)
      · rw [if_neg hcn] at ha
        exact hinv c a ha
    · intro r1 hr1
      simp only [Option.some.injEq] at hr1
      subst hr1
      exact hinv nc _ (by rw [hl]; exact List.mem_cons_self _ _)
  | nil =>
    simp only
    rcases hk : kallocLoop ncpu nc (ncpu - 1) 1 st with ⟨ro, st1⟩
    have hloop := @kinv_kallocLoop kend ptop ncpu nc st hinv (ncpu - 1) 1
    rw [hk] at hloop
    cases ro with
    | none => exact ⟨hloop.1, by intro r hr; simp at hr⟩
    | some r =>
      simp only
      obtain ⟨ha1, ha2, ha3⟩ := hloop.2 r rfl
      constructor
      · intro c a ha
        simp only [kmemset] at ha
        exact hloop.1 c a ha
      · intro r1 hr1
        simp only [Option.some.injEq] at hr1
        subst hr1
        exact ⟨ha1, ha2, ha3⟩

theorem kinv_freerangeLoop {kend ptop nc : Nat} :
    ∀ (fuel p : Nat) (st st1 : K), kinv kend ptop st →
      freerangeLoop kend ptop nc fuel p st = some st1 → kinv kend ptop st1 := by
  intro fuel
  induction fuel with
  | zero =>
    intro p st st1 hinv hf
    rw [freerangeLoop] at hf
    simp only [Option.some.injEq] at hf
    subst hf; exact hinv
  | succ n ih =>
    intro p st st1 hinv hf
    rw [freerangeLoop] at hf
    by_cases hp : p + PGSIZE ≤ ptop
    · rw [if_pos hp] at hf
      cases hk : kfree kend ptop nc p st with
      | none => rw [hk] at hf; simp at hf
      | some st2 =>
        rw [hk] at hf
        exact ih (p + PGSIZE) st2 st1 (kinv_kfree hinv hk) hf
    · rw [if_neg hp] at hf
      simp only [Option.some.injEq] at hf
      subst hf; exact hinv

/-- C7.  Alignment and range invariant: the freelists produced by
kinit/freerange satisfy `kinv` (every node page-aligned and inside
`[end, PHYSTOP)`), `kinv` is preserved by every successful kfree and by
every kalloc, and every non-null kalloc result itself satisfies the
alignment and range bounds. -/
theorem kalloc_alignment_invariant (kend ptop : Nat) :
    (∀ nc st1, kinitState kend ptop nc = some st1 → kinv kend ptop st1) ∧
    (∀ st nc pa st1, kinv kend ptop st →
      kfree kend ptop nc pa st = some st1 → kinv kend ptop st1) ∧
    (∀ ncpu nc st, kinv kend ptop st →
      kinv kend ptop (kalloc ncpu nc st).2 ∧
      (∀ r, (kalloc ncpu nc st).1 = some r →
        r % PGSIZE = 0 ∧ kend ≤ r ∧ r < ptop)) := by
  refine ⟨?_, ?_, ?_⟩
  · intro nc st1 hf
    refine kinv_freerangeLoop ptop (PGROUNDUP kend) _ st1 ?_ hf
    intro c a ha
    simp at ha
  · intro st nc pa st1 hinv hk
    exact kinv_kfree hinv hk
  · intro ncpu nc st hinv
    exact kinv_kalloc hinv

/-- Witness for C7 at `kend = 4096`, `PHYSTOP = 20480`: the invariant holds
for the state kinit builds, and is preserved on a concrete one-frame state
through kalloc. -/
theorem kalloc_alignment_invariant_w :
    (kinitState 4096 20480 0 = some KI ∧ kinv 4096 20480 KI) ∧
    (kinv 4096 20480 kEx2 ∧ kinv 4096 20480 (kalloc 8 0 kEx2).2 ∧
      (∀ r, (kalloc 8 0 kEx2).1 = some r →
        r % PGSIZE = 0 ∧ 4096 ≤ r ∧ r < 20480)) := by
  have hkinv2 : kinv 4096 20480 kEx2 := by
    intro c a ha
    by_cases hc : c = 5
    · subst hc
      simp [kEx2] at ha
      subst ha
      exact ⟨by decide, by decide, by decide⟩
    · simp [kEx2, hc] at ha
  have h3 := (kalloc_alignment_invariant 4096 20480).2.2 8 0 kEx2 hkinv2
  exact ⟨⟨rfl, (kalloc_alignment_invariant 4096 20480).1 0 KI rfl⟩,
    hkinv2, h3.1, h3.2⟩

/-- Witness for C4 with 8 CPUs, caller on CPU 2, and one frame in pool 5. -/
theorem kalloc_characterization_w :
    2 < 8 ∧
    (((kalloc 8 2 kEx2).1 = none ↔ ∀ c, c < 8 → kEx2.freelist c = []) ∧
     (∀ i r rest, i < 8 →
       (∀ i2, i2 < i → kEx2.freelist ((2 + i2) % 8) = []) →
       kEx2.freelist ((2 + i) % 8) = r :: rest →
       (kalloc 8 2 kEx2).1 = some r ∧
       (kalloc 8 2 kEx2).2.freelist ((2 + i) % 8) = rest ∧
       (∀ a, r ≤ a → a < r + PGSIZE → (kalloc 8 2 kEx2).2.mem a = 5))) := by
  exact ⟨by decide, kalloc_characterization 8 2 kEx2 (by decide)⟩

/-- The steal re-link writes only pointer fields, never buffer fields. -/
theorem stealRelink_bufs (st : BC) (j h : Nat) : (stealRelink st j h).bufs = st.bufs := rfl

theorem stealRelink_reads (st : BC) (j h : Nat) : (stealRelink st j h).reads = st.reads := rfl

theorem stealRelink_nbuf (st : BC) (j h : Nat) : (stealRelink st j h).nbuf = st.nbuf := rfl

theorem stealRelink_disk (st : BC) (j h : Nat) : (stealRelink st j h).disk = st.disk := rfl

/-- After the steal re-link the home sentinel's `next` is the stolen
buffer (the last write of the sequence). -/
theorem stealRelink_nextP_home (st : BC) (j h : Nat) :
    (stealRelink st j h).nextP (Node.sentinel h) = Node.buf j := by
  simp [stealRelink]

/-- What a successful steal establishes: the returned buffer is the found
victim, it was not sleep-locked, the home sentinel's `next` now points at it,
its fields carry the new identity with `refcnt = 1` and the lock held, and
everything else (other buffers, read counter, nbuf, disk) is untouched. -/
theorem bgetSteal_ok {st : BC} {jb dev blockno h j : Nat} {st1 : BC}
    (hs : bgetSteal st jb dev blockno h = some (BRes.ok j st1)) :
    j = jb ∧ (st.bufs j).locked = false ∧
    st1.nextP (Node.sentinel h) = Node.buf j ∧
    st1.bufs j = { st.bufs j with dev := dev, blockno := blockno, valid := false, refcnt := 1, locked := true } ∧
    (∀ k, k ≠ j → st1.bufs k = st.bufs k) ∧
    st1.reads = st.reads ∧ st1.nbuf = st.nbuf ∧ st1.disk = st.disk := by
  by_cases hl : (st.bufs jb).locked
  · rw [bgetSteal, if_pos hl] at hs; simp at hs
  · rw [bgetSteal, if_neg hl] at hs
    simp only [Option.some.injEq, BRes.ok.injEq] at hs
    obtain ⟨rfl, rfl⟩ := hs
    refine ⟨rfl, by simpa using hl, ?_, ?_, ?_, rfl, rfl, rfl⟩
    · simp [stealRelink_nextP_home]
    · simp [stealRelink_bufs]
    · intro k hk
      simp [stealRelink_bufs, hk]

/-- A successful steal-loop result always comes from `bgetSteal` on some
victim, applied to the unchanged entry state. -/
theorem bgetStealLoop_ok_src {st : BC} {dev blockno h j : Nat} {st1 : BC} :
    ∀ {cnt i : Nat}, bgetStealLoop st dev blockno h cnt i = some (BRes.ok j st1) →
      ∃ jb, bgetSteal st jb dev blockno h = some (BRes.ok j st1) := by
  intro cnt
  induction cnt with
  | zero => intro i hk; rw [bgetStealLoop] at hk; simp at hk
  | succ n ih =>
    intro i hk
    rw [bgetStealLoop] at hk
    rcases hsr : searchG st.nextP (freeB st) ((h + i) % NBUCKET) (bfuel st)
        (st.nextP (Node.sentinel ((h + i) % NBUCKET))) with _ | ro
    · rw [hsr] at hk; simp at hk
    · rw [hsr] at hk
      cases ro with
      | some jb => exact ⟨jb, hk⟩
      | none => exact ih hk

/-- Case analysis of a successful bget: it went through the hit path, the
local-reuse path, or the cross-bucket steal path, with the corresponding
search outcomes and post-state. -/
theorem bget_ok_cases {st : BC} {dev blockno j : Nat} {st1 : BC}
    (hb : bget st dev blockno = some (BRes.ok j st1)) :
    (searchG st.nextP (matchB st dev blockno) (dhash dev blockno) (bfuel st)
        (st.nextP (Node.sentinel (dhash dev blockno))) = some (some j) ∧
      (st.bufs j).locked = false ∧
      st1 = setBuf st j { st.bufs j with refcnt := ((st.bufs j).refcnt + 1) % U32, locked := true }) ∨
    (searchG st.nextP (matchB st dev blockno) (dhash dev blockno) (bfuel st)
        (st.nextP (Node.sentinel (dhash dev blockno))) = some none ∧
      searchG st.nextP (freeB st) (dhash dev blockno) (bfuel st)
        (st.nextP (Node.sentinel (dhash dev blockno))) = some (some j) ∧
      (st.bufs j).locked = false ∧
      st1 = setBuf st j { st.bufs j with dev := dev, blockno := blockno, valid := false, refcnt := 1, locked := true }) ∨
    (searchG st.nextP (matchB st dev blockno) (dhash dev blockno) (bfuel st)
        (st.nextP (Node.sentinel (dhash dev blockno))) = some none ∧
      searchG st.nextP (freeB st) (dhash dev blockno) (bfuel st)
        (st.nextP (Node.sentinel (dhash dev blockno))) = some none ∧
      ∃ jb, bgetSteal st jb dev blockno (dhash dev blockno) = some (BRes.ok j st1)) := by
  rw [bget] at hb
  rcases hs1 : searchG st.nextP (matchB st dev blockno) (dhash dev blockno) (bfuel st)
      (st.nextP (Node.sentinel (dhash dev blockno))) with _ | r1
  · rw [hs1] at hb; simp at hb
  · rw [hs1] at hb
    cases r1 with
    | some j0 =>
      have hb2 : bgetHit st j0 = some (BRes.ok j st1) := hb
      by_cases hl : (st.bufs j0).locked
      · rw [bgetHit, if_pos hl] at hb2; simp at hb2
      · rw [bgetHit, if_neg hl] at hb2
        simp only [Option.some.injEq, BRes.ok.injEq] at hb2
        obtain ⟨rfl, rfl⟩ := hb2
        exact Or.inl ⟨rfl, by simpa using hl, rfl⟩
    | none =>
      rcases hs2 : searchG st.nextP (freeB st) (dhash dev blockno) (bfuel st)
          (st.nextP (Node.sentinel (dhash dev blockno))) with _ | r2
      · rw [hs2] at hb; simp at hb
      · rw [hs2] at hb
        cases r2 with
        | some j0 =>
          have hb2 : bgetClaim st j0 dev blockno = some (BRes.ok j st1) := hb
          by_cases hl : (st.bufs j0).locked
          · rw [bgetClaim, if_pos hl] at hb2; simp at hb2
          · rw [bgetClaim, if_neg hl] at hb2
            simp only [Option.some.injEq, BRes.ok.injEq] at hb2
            obtain ⟨rfl, rfl⟩ := hb2
            exact Or.inr (Or.inl ⟨rfl, rfl, by simpa using hl, rfl⟩)
        | none =>
          exact Or.inr (Or.inr ⟨rfl, rfl, bgetStealLoop_ok_src hb⟩)



/-- If the home-bucket hit scan finds buffer `j`, which is unlocked and
valid, then bread takes the hit path and performs no disk read. -/
theorem bread_hit (stA : BC) (dev blockno j : Nat)
    (ha : searchG stA.nextP (matchB stA dev blockno) (dhash dev blockno) (bfuel stA)
      (stA.nextP (Node.sentinel (dhash dev blockno))) = some (some j))
    (hlk : (stA.bufs j).locked = false)
    (hvd : (stA.bufs j).valid = true) :
    bread stA dev blockno = some (BRes.ok j
      (setBuf stA j { stA.bufs j with refcnt := ((stA.bufs j).refcnt + 1) % U32, locked := true })) := by
  have hget : bget stA dev blockno = some (BRes.ok j
      (setBuf stA j { stA.bufs j with refcnt := ((stA.bufs j).refcnt + 1) % U32, locked := true })) := by
    rw [bget]
    simp only [ha]
    rw [bgetHit, if_neg (by simp [hlk])]
  rw [bread, hget]
  simp [hvd]



/-- Variant of `bread_hit` where buffer `j` sits at the head of the home
bucket and matches. -/
theorem bread_hit_head (stA : BC) (dev blockno j : Nat)
    (hstart : stA.nextP (Node.sentinel (dhash dev blockno)) = Node.buf j)
    (hm : matchB stA dev blockno j = true)
    (hlk : (stA.bufs j).locked = false)
    (hvd : (stA.bufs j).valid = true) :
    bread stA dev blockno = some (BRes.ok j
      (setBuf stA j { stA.bufs j with refcnt := ((stA.bufs j).refcnt + 1) % U32, locked := true })) := by
  refine bread_hit stA dev blockno j ?_ hlk hvd
  rw [hstart]
  exact searchG_buf_head (by unfold bfuel; omega) hm

/-- C3.  Cache-hit round trip.  From any state in which every buffer is
invalid and no disk read has happened yet — the state binit leaves behind —
if `b1 = bread(dev, blockno)` succeeds returning buffer `j`, then it
performed exactly one disk read, the subsequent `brelse` succeeds, and a
second `bread(dev, blockno)` returns the very same buffer `j` while
performing no further disk read (`valid` remained true across the release):
one disk read in total. -/
theorem bread_brelse_bread (st : BC) (dev blockno j : Nat) (st1 : BC)
    (hv : ∀ k, (st.bufs k).valid = false) (hr : st.reads = 0)
    (hb : bread st dev blockno = some (BRes.ok j st1)) :
    st1.reads = 1 ∧ ∃ st2 st3, brelse st1 j = some st2 ∧
      bread st2 dev blockno = some (BRes.ok j st3) ∧ st3.reads = 1 := by
  rw [bread] at hb
  rcases hg : bget st dev blockno with _ | r0
  · rw [hg] at hb; simp at hb
  · rw [hg] at hb
    cases r0 with
    | panic => simp at hb
    | ok j0 st0 =>
      have hcases := bget_ok_cases hg
      have hfacts : (st0.bufs j0).dev = dev ∧ (st0.bufs j0).blockno = blockno ∧
          (st0.bufs j0).locked = true ∧ (st0.bufs j0).valid = false ∧
          st0.reads = st.reads ∧ st0.nbuf = st.nbuf ∧
          (∀ k, k ≠ j0 → st0.bufs k = st.bufs k) := by
        rcases hcases with ⟨hs, hl, rfl⟩ | ⟨hs, hs2, hl, rfl⟩ | ⟨hs, hs2, jb, hsteal⟩
        · have hm : matchB st dev blockno j0 = true := searchG_found_p hs
          simp only [matchB, Bool.and_eq_true, beq_iff_eq] at hm
          exact ⟨by simp [hm.1], by simp [hm.2], by simp, by simp [hv j0], rfl, rfl,
            fun k hk => by simp [hk]⟩
        · exact ⟨by simp, by simp, by simp, by simp, rfl, rfl, fun k hk => by simp [hk]⟩
        · obtain ⟨rfl, hlf, hnx, hbj, hoth, hrd, hnb, hdk⟩ := bgetSteal_ok hsteal
          exact ⟨by simp [hbj], by simp [hbj], by simp [hbj], by simp [hbj], hrd, hnb, hoth⟩
      obtain ⟨hdev0, hblk0, hlock0, hval0, hrd0, hnb0, hoth0⟩ := hfacts
      have hb2 : (if (st0.bufs j0).valid = true then some (BRes.ok j0 st0)
          else some (BRes.ok j0
            ({ setBuf st0 j0 { st0.bufs j0 with data := st0.disk dev blockno, valid := true }
               with reads := st0.reads + 1 }))) = some (BRes.ok j st1) := hb
      rw [if_neg (by simp [hval0])] at hb2
      simp only [Option.some.injEq, BRes.ok.injEq] at hb2
      obtain ⟨rfl, hst1⟩ := hb2
      have hst1reads : st1.reads = st0.reads + 1 := by rw [← hst1]
      have hst1bufs : st1.bufs j0 =
          { st0.bufs j0 with data := st0.disk dev blockno, valid := true } := by
        rw [← hst1]; simp
      have hst1bufsO : ∀ k, k ≠ j0 → st1.bufs k = st0.bufs k := fun k hk => by
        rw [← hst1]; simp [hk]
      have hst1nextP : st1.nextP = st0.nextP := by rw [← hst1]; rfl
      have hst1nbuf : st1.nbuf = st0.nbuf := by rw [← hst1]; rfl
      refine ⟨by rw [hst1reads, hrd0, hr], ?_⟩
      set st2v : BC := setBuf st1 j0
        { st1.bufs j0 with locked := false, refcnt := decW (st1.bufs j0).refcnt } with hst2v
      set st3v : BC := setBuf st2v j0
        { st2v.bufs j0 with refcnt := ((st2v.bufs j0).refcnt + 1) % U32, locked := true } with hst3v
      have h2nextP : st2v.nextP = st0.nextP := by rw [hst2v, setBuf_nextP, hst1nextP]
      have h2nbuf : st2v.nbuf = st.nbuf := by rw [hst2v, setBuf_nbuf, hst1nbuf, hnb0]
      have h2bufsj : st2v.bufs j0 =
          { st1.bufs j0 with locked := false, refcnt := decW (st1.bufs j0).refcnt } := by
        rw [hst2v]; simp
      have h2bufsO : ∀ k, k ≠ j0 → st2v.bufs k = st.bufs k := fun k hk => by
        rw [hst2v]; simp only [setBuf_bufs, if_neg hk]
        rw [hst1bufsO k hk, hoth0 k hk]
      have h2match : matchB st2v dev blockno j0 = true := by
        simp [matchB, h2bufsj, hst1bufs, hdev0, hblk0]
      have h2matchO : ∀ k, k ≠ j0 → matchB st2v dev blockno k = matchB st dev blockno k :=
        fun k hk => by simp [matchB, h2bufsO k hk]
      have h2lock : (st2v.bufs j0).locked = false := by simp [h2bufsj]
      have h2valid : (st2v.bufs j0).valid = true := by simp [h2bufsj, hst1bufs]
      have hfl : bfuel st2v = bfuel st := by unfold bfuel; rw [h2nbuf]
      refine ⟨st2v, st3v, ?_, ?_, ?_⟩
      · rw [brelse, if_pos (by simp [hst1bufs, hlock0])]
      · have hbr := bread_hit st2v dev blockno j0 ?_ h2lock h2valid
        · rw [hbr, hst3v]
        · rcases hcases with ⟨hs, hl, hst0eq⟩ | ⟨hs, hs2, hl, hst0eq⟩ | ⟨hs, hs2, jb, hsteal⟩
          · have hnp : st2v.nextP = st.nextP := by rw [h2nextP, hst0eq, setBuf_nextP]
            rw [hnp, hfl]
            exact searchG_stable h2match h2matchO hs
          · have hnp : st2v.nextP = st.nextP := by rw [h2nextP, hst0eq, setBuf_nextP]
            rw [hnp, hfl]
            exact searchG_upgrade h2match h2matchO hs hs2
          · obtain ⟨rfl, hlf, hnx, hbj, hoth, hrd, hnb, hdk⟩ := bgetSteal_ok hsteal
            have hstart : st2v.nextP (Node.sentinel (dhash dev blockno)) = Node.buf j0 := by
              rw [h2nextP, hnx]
            rw [hstart]
            exact searchG_buf_head (by unfold bfuel; omega) h2match
      · rw [hst3v]
        simp only [setBuf_reads]
        rw [hst2v, setBuf_reads, hst1reads, hrd0, hr]



/-- Witness for C3 on the one-buffer binit state with `bread(0, 5)`:
the first bread steals buffer 0 into home bucket 5 and reads once; the
round trip returns buffer 0 again with the read counter still 1. -/
theorem bread_brelse_bread_w :
    (∀ k, (exSt0.bufs k).valid = false) ∧ exSt0.reads = 0 ∧
    bread exSt0 0 5 = some (BRes.ok 0 exC3St1) ∧
    (exC3St1.reads = 1 ∧ ∃ st2 st3, brelse exC3St1 0 = some st2 ∧
      bread st2 0 5 = some (BRes.ok 0 st3) ∧ st3.reads = 1) :=
  ⟨fun _ => rfl, rfl, rfl,
   bread_brelse_bread exSt0 0 5 0 exC3St1 (fun _ => rfl) rfl rfl⟩

/-- Membership in a fold of appended per-bucket lists. -/
theorem mem_foldr_append {f : Nat → List Nat} {j : Nat} :
    ∀ {L : List Nat}, (j ∈ L.foldr (fun h acc => f h ++ acc) []) ↔ ∃ h ∈ L, j ∈ f h := by
  intro L
  induction L with
  | nil => simp
  | cons a L ih => simp [ih]

/-- A buffer index is in the concatenation of all bucket lists exactly when
some bucket's list contains it. -/
theorem mem_allBufLists {st : BC} {j : Nat} :
    j ∈ allBufLists st ↔ ∃ h, h < NBUCKET ∧ j ∈ (bucketList st h).getD [] := by
  unfold allBufLists
  rw [mem_foldr_append]
  constructor
  · rintro ⟨h, hh, hj⟩; exact ⟨h, List.mem_range.mp hh, hj⟩
  · rintro ⟨h, hh, hj⟩; exact ⟨h, List.mem_range.mpr hh, hj⟩

/-- The steal path itself never panics: it blocks or returns a buffer. -/
theorem bgetSteal_ne_panic {st : BC} {jb dev blockno h : Nat} :
    bgetSteal st jb dev blockno h ≠ some BRes.panic := by
  by_cases hl : (st.bufs jb).locked
  · rw [bgetSteal, if_pos hl]; simp
  · rw [bgetSteal, if_neg hl]; simp

/-- If the steal loop fell through to the panic, every bucket it probed
completed its free scan without a victim. -/
theorem stealLoop_panic_searches {st : BC} {dev blockno h : Nat} :
    ∀ {cnt i : Nat}, bgetStealLoop st dev blockno h cnt i = some BRes.panic →
      ∀ ii, i ≤ ii → ii < i + cnt →
        searchG st.nextP (freeB st) ((h + ii) % NBUCKET) (bfuel st)
          (st.nextP (Node.sentinel ((h + ii) % NBUCKET))) = some none := by
  intro cnt
  induction cnt with
  | zero => intro i _ ii _ _; omega
  | succ n ih =>
    intro i hp ii h1 h2
    rw [bgetStealLoop] at hp
    rcases hsr : searchG st.nextP (freeB st) ((h + i) % NBUCKET) (bfuel st)
        (st.nextP (Node.sentinel ((h + i) % NBUCKET))) with _ | ro
    · rw [hsr] at hp; simp at hp
    · rw [hsr] at hp
      cases ro with
      | some jv => exact absurd hp bgetSteal_ne_panic
      | none =>
        by_cases hii : ii = i
        · subst hii; exact hsr
        · exact ih hp ii (by omega) (by omega)

/-- If every probed bucket's free scan completes empty-handed, the steal
loop panics. -/
theorem stealLoop_all_none_panic {st : BC} {dev blockno h : Nat} :
    ∀ {cnt i : Nat},
      (∀ ii, i ≤ ii → ii < i + cnt →
        searchG st.nextP (freeB st) ((h + ii) % NBUCKET) (bfuel st)
          (st.nextP (Node.sentinel ((h + ii) % NBUCKET))) = some none) →
      bgetStealLoop st dev blockno h cnt i = some BRes.panic := by
  intro cnt
  induction cnt with
  | zero => intro i _; rw [bgetStealLoop]
  | succ n ih =>
    intro i hall
    rw [bgetStealLoop]
    rw [hall i le_rfl (by omega)]
    exact ih (fun ii ha hb => hall ii (by omega) (by omega))

/-- If some probed bucket's list is reachable and holds a zero-refcnt
buffer, and no buffer is sleep-locked, the steal loop returns a buffer. -/
theorem stealLoop_finds {st : BC} {dev blockno h : Nat}
    (hwalks : ∀ b, b < NBUCKET → ∃ l, bucketList st b = some l)
    (hrange : wfRange st) (hlocks : locksFree st) :
    ∀ (cnt i : Nat),
      (∃ ii, i ≤ ii ∧ ii < i + cnt ∧
        ∃ k ∈ (bucketList st ((h + ii) % NBUCKET)).getD [], freeB st k = true) →
      ∃ jr str, bgetStealLoop st dev blockno h cnt i = some (BRes.ok jr str) := by
  intro cnt
  induction cnt with
  | zero => rintro i ⟨ii, h1, h2, _⟩; omega
  | succ n ih =>
    rintro i ⟨ii, h1, h2, k, hkmem, hkfree⟩
    have hob : (h + i) % NBUCKET < NBUCKET := Nat.mod_lt _ (by unfold NBUCKET; omega)
    obtain ⟨lob, hlob⟩ := hwalks ((h + i) % NBUCKET) hob
    rw [bgetStealLoop]
    rcases hsr : searchG st.nextP (freeB st) ((h + i) % NBUCKET) (bfuel st)
        (st.nextP (Node.sentinel ((h + i) % NBUCKET))) with _ | ro
    · exact absurd (congrArg Option.isSome hsr)
        (by simp [walkG_isSome_search (freeB st) hlob])
    · cases ro with
      | some jv =>
        have hjv : jv ∈ lob := searchG_found_mem hlob hsr
        have hjlt : jv < st.nbuf := hrange _ hob jv (by rw [hlob]; exact hjv)
        have hjlk : (st.bufs jv).locked = false := hlocks jv hjlt
        show ∃ jr str, bgetSteal st jv dev blockno h = some (BRes.ok jr str)
        rw [bgetSteal, if_neg (by simp [hjlk])]
        exact ⟨jv, _, rfl⟩
      | none =>
        by_cases hii : ii = i
        · subst hii
          rw [hlob] at hkmem
          have := searchG_none_walk hsr hlob k hkmem
          rw [hkfree] at this
          cases this
        · exact ih (i + 1) ⟨ii, by omega, by omega, k, hkmem, hkfree⟩

/-- A panic of bget implies that the hit scan and the free scan of the home
bucket both completed without success, and the steal loop then panicked. -/
theorem bget_panic_cases {st : BC} {dev blockno : Nat}
    (hp : bget st dev blockno = some BRes.panic) :
    searchG st.nextP (matchB st dev blockno) (dhash dev blockno) (bfuel st)
      (st.nextP (Node.sentinel (dhash dev blockno))) = some none ∧
    searchG st.nextP (freeB st) (dhash dev blockno) (bfuel st)
      (st.nextP (Node.sentinel (dhash dev blockno))) = some none ∧
    bgetStealLoop st dev blockno (dhash dev blockno) (NBUCKET - 1) 1 = some BRes.panic := by
  rw [bget] at hp
  rcases hs1 : searchG st.nextP (matchB st dev blockno) (dhash dev blockno) (bfuel st)
      (st.nextP (Node.sentinel (dhash dev blockno))) with _ | r1
  · rw [hs1] at hp; simp at hp
  · rw [hs1] at hp
    cases r1 with
    | some j0 =>
      have hp2 : bgetHit st j0 = some BRes.panic := hp
      by_cases hl : (st.bufs j0).locked
      · rw [bgetHit, if_pos hl] at hp2; simp at hp2
      · rw [bgetHit, if_neg hl] at hp2; simp at hp2
    | none =>
      rcases hs2 : searchG st.nextP (freeB st) (dhash dev blockno) (bfuel st)
          (st.nextP (Node.sentinel (dhash dev blockno))) with _ | r2
      · rw [hs2] at hp; simp at hp
      · rw [hs2] at hp
        cases r2 with
        | some j0 =>
          have hp2 : bgetClaim st j0 dev blockno = some BRes.panic := hp
          by_cases hl : (st.bufs j0).locked
          · rw [bgetClaim, if_pos hl] at hp2; simp at hp2
          · rw [bgetClaim, if_neg hl] at hp2; simp at hp2
        | none => exact ⟨rfl, rfl, hp⟩



/-- C5.  bget panics if and only if the cache is exhausted: on a conserved,
well-formed, quiescent state (every bucket list walkable, every reachable
index a real buffer, matching buffers in their home bucket, no sleep-lock
held), `bget(dev, blockno)` panics exactly when no buffer matches
`(dev, blockno)` and all `nbuf` buffers simultaneously have `refcnt > 0`;
and whenever at least one buffer with `refcnt = 0` exists anywhere, bget
returns a buffer rather than aborting. -/
theorem bget_panic_iff (st : BC) (dev blockno : Nat)
    (hcons : conserved st) (hrange : wfRange st)
    (hplace : placement st dev blockno) (hlocks : locksFree st) :
    ((bget st dev blockno = some BRes.panic) ↔
      ((∀ jj, jj < st.nbuf → matchB st dev blockno jj = false) ∧
       (∀ jj, jj < st.nbuf → (st.bufs jj).refcnt ≠ 0))) ∧
    ((∃ jj, jj < st.nbuf ∧ (st.bufs jj).refcnt = 0) →
      ∃ jr str, bget st dev blockno = some (BRes.ok jr str)) := by
  have hh : dhash dev blockno < NBUCKET := Nat.mod_lt _ (by simp only [NBUCKET]; omega)
  have hwalks : ∀ b, b < NBUCKET → ∃ l, bucketList st b = some l := by
    intro b hb
    exact Option.isSome_iff_exists.mp (hcons.1 b hb)
  have hcov : ∀ jj, jj < st.nbuf → ∃ b, b < NBUCKET ∧ jj ∈ (bucketList st b).getD [] := by
    intro jj hjj
    have hc := hcons.2.2 jj hjj
    have hmem : jj ∈ allBufLists st := List.count_pos_iff.mp (by omega)
    exact mem_allBufLists.mp hmem
  obtain ⟨lh, hlh⟩ := hwalks (dhash dev blockno) hh
  constructor
  · constructor
    · intro hp
      obtain ⟨hs1, hs2, hloop⟩ := bget_panic_cases hp
      constructor
      · intro jj hjj
        by_contra hm
        have hm' : matchB st dev blockno jj = true := by
          cases hmb : matchB st dev blockno jj
          · exact absurd hmb hm
          · rfl
        have hmem := hplace jj hjj hm'
        rw [hlh, Option.getD_some] at hmem
        have := searchG_none_walk hs1 hlh jj hmem
        rw [hm'] at this
        cases this
      · intro jj hjj hr0
        obtain ⟨b, hb, hmem⟩ := hcov jj hjj
        obtain ⟨lb, hlb⟩ := hwalks b hb
        rw [hlb, Option.getD_some] at hmem
        have hfr : freeB st jj = true := by simp [freeB, hr0]
        by_cases hbh : b = dhash dev blockno
        · subst hbh
          rw [hlh] at hlb
          obtain rfl : lh = lb := by injection hlb
          have := searchG_none_walk hs2 hlh jj hmem
          rw [hfr] at this
          cases this
        · obtain ⟨ii, hii1, hii2, hii3⟩ := probe_cover hh hb hbh
          have hsn := stealLoop_panic_searches hloop ii hii1
            (by simp only [NBUCKET] at *; omega)
          rw [hii3] at hsn
          have := searchG_none_walk hsn hlb jj hmem
          rw [hfr] at this
          cases this
    · rintro ⟨hm, hr⟩
      have hnone : ∀ b, b < NBUCKET → ∀ lb, bucketList st b = some lb →
          ∀ (p : Nat → Bool), (∀ k, k < st.nbuf → p k = false) →
          searchG st.nextP p b (bfuel st) (st.nextP (Node.sentinel b)) = some none := by
        intro b hb lb hlb p hp
        exact walkG_search_none hlb
          (fun k hk => hp k (hrange b hb k (by rw [hlb, Option.getD_some]; exact hk)))
      have hs1 := hnone _ hh lh hlh (matchB st dev blockno) hm
      have hs2 := hnone _ hh lh hlh (freeB st)
        (fun k hk => by simp [freeB, hr k hk])
      rw [bget]
      simp only [hs1, hs2]
      refine stealLoop_all_none_panic ?_
      intro ii h1 h2
      have hob : (dhash dev blockno + ii) % NBUCKET < NBUCKET :=
        Nat.mod_lt _ (by simp only [NBUCKET]; omega)
      obtain ⟨lb, hlb⟩ := hwalks _ hob
      exact hnone _ hob lb hlb (freeB st) (fun k hk => by simp [freeB, hr k hk])
  · rintro ⟨jj, hjj, hr0⟩
    rcases hs1 : searchG st.nextP (matchB st dev blockno) (dhash dev blockno) (bfuel st)
        (st.nextP (Node.sentinel (dhash dev blockno))) with _ | r1
    · exact absurd (congrArg Option.isSome hs1)
        (by simp [walkG_isSome_search (matchB st dev blockno) hlh])
    · cases r1 with
      | some jv =>
        have hjv : jv ∈ lh := searchG_found_mem hlh hs1
        have hjlt : jv < st.nbuf := hrange _ hh jv (by rw [hlh, Option.getD_some]; exact hjv)
        have hjlk : (st.bufs jv).locked = false := hlocks jv hjlt
        rw [bget]
        simp only [hs1]
        show ∃ jr str, bgetHit st jv = some (BRes.ok jr str)
        rw [bgetHit, if_neg (by simp [hjlk])]
        exact ⟨jv, _, rfl⟩
      | none =>
        rcases hs2 : searchG st.nextP (freeB st) (dhash dev blockno) (bfuel st)
            (st.nextP (Node.sentinel (dhash dev blockno))) with _ | r2
        · exact absurd (congrArg Option.isSome hs2)
            (by simp [walkG_isSome_search (freeB st) hlh])
        · cases r2 with
          | some jv =>
            have hjv : jv ∈ lh := searchG_found_mem hlh hs2
            have hjlt : jv < st.nbuf := hrange _ hh jv (by rw [hlh, Option.getD_some]; exact hjv)
            have hjlk : (st.bufs jv).locked = false := hlocks jv hjlt
            rw [bget]
            simp only [hs1, hs2]
            show ∃ jr str, bgetClaim st jv dev blockno = some (BRes.ok jr str)
            rw [bgetClaim, if_neg (by simp [hjlk])]
            exact ⟨jv, _, rfl⟩
          | none =>
            obtain ⟨b, hb, hmem⟩ := hcov jj hjj
            have hfr : freeB st jj = true := by simp [freeB, hr0]
            by_cases hbh : b = dhash dev blockno
            · subst hbh
              rw [hlh, Option.getD_some] at hmem
              have := searchG_none_walk hs2 hlh jj hmem
              rw [hfr] at this
              cases this
            · obtain ⟨ii, hii1, hii2, hii3⟩ := probe_cover hh hb hbh
              obtain ⟨jr, str, hloop⟩ :=
                stealLoop_finds hwalks hrange hlocks (NBUCKET - 1) 1
                  ⟨ii, hii1, by simp only [NBUCKET] at *; omega,
                   jj, by rw [hii3]; exact hmem, hfr⟩
              refine ⟨jr, str, ?_⟩
              rw [bget]
              simp only [hs1, hs2]
              exact hloop



/-- Witness for C5 on the one-buffer binit state at key (0, 0): the
hypotheses hold by evaluation, and the instantiated characterization
follows. -/
theorem bget_panic_iff_w :
    (conserved exSt0 ∧ wfRange exSt0 ∧ placement exSt0 0 0 ∧ locksFree exSt0) ∧
    (((bget exSt0 0 0 = some BRes.panic) ↔
      ((∀ jj, jj < exSt0.nbuf → matchB exSt0 0 0 jj = false) ∧
       (∀ jj, jj < exSt0.nbuf → (exSt0.bufs jj).refcnt ≠ 0))) ∧
     ((∃ jj, jj < exSt0.nbuf ∧ (exSt0.bufs jj).refcnt = 0) →
      ∃ jr str, bget exSt0 0 0 = some (BRes.ok jr str))) :=
  ⟨⟨by decide, by decide, by decide, by decide⟩,
   bget_panic_iff exSt0 0 0 (by decide) (by decide) (by decide) (by decide)⟩

end Xv6
